import Mathlib

set_option maxHeartbeats 1600000

/-!
Shallow embedding of the PDF vector-extraction core
(`scripts/extract_pdf_vectors.py`, production variant) and proofs about it.

Coordinates, stroke widths and page dimensions are modelled as exact
rationals; colors, path kinds and layer tags as strings; the raster buffer
as a flat list of byte values.  Python dictionaries for path primitives are
modelled as a record with the fields the code reads and writes.
-/

namespace PdfExtract

/-- A path primitive, corresponding to the python dicts with keys
`type`, `points`, `stroke`, `strokeWidth`, `fill`, `layer`. -/
structure PathObj where
  ptype : String
  points : List ℚ
  stroke : String
  strokeWidth : ℚ
  fill : Option String
  layer : String
deriving DecidableEq, Repr

/-- A normalized text run (python dict with keys `x`, `y`, `text`,
`fontSize`, `fontName`, `rotation`). -/
structure TextRun where
  x : ℚ
  y : ℚ
  text : String
  fontSize : ℚ
  fontName : String
  rot : ℚ
deriving DecidableEq, Repr

/-- Page bounds in page units. -/
structure PageBounds where
  width : ℚ
  height : ℚ
deriving DecidableEq, Repr

/-- The per-page extraction result. -/
structure ExtractionResult where
  texts : List TextRun
  paths : List PathObj
  bounds : PageBounds
  isVector : Bool
  error : Option String
deriving DecidableEq, Repr

/-! ## Deduplicator (`add_path_if_new`) -/

/-- Rounding to one decimal place, as an integer number of tenths,
modelling python float formatting with one digit after the point. -/
def round1 (q : ℚ) : ℤ := round (10 * q)

/-- Rounding to two decimal places, as an integer number of hundredths. -/
def round2 (q : ℚ) : ℤ := round (100 * q)

/-- The dedup signature: kind, first 10 coordinates (5 pairs) rounded to
one decimal, stroke color, stroke width rounded to two decimals. -/
abbrev Sig := String × List ℤ × String × ℤ

/-- Signature of a candidate, from `add_path_if_new`:
`sig = f"{type}_{points[:10] each %.1f}_{stroke}_{strokeWidth:.2f}"`. -/
def pathSig (p : PathObj) : Sig :=
  (p.ptype, (p.points.take 10).map round1, p.stroke, round2 p.strokeWidth)

/-- The mutable state shared by all extraction pathways of one page:
the signature set and the admitted path list. -/
structure DedupState where
  sigs : List Sig
  paths : List PathObj
deriving DecidableEq, Repr

/-- The state at the start of a page. -/
def dedupInit : DedupState := ⟨[], []⟩

/-- `add_path_if_new`: admit the candidate only if it has points and its
signature is unseen; return whether it was admitted, plus the new state. -/
def add_path_if_new (st : DedupState) (p : PathObj) : Bool × DedupState :=
  if p.points = [] then (false, st)
  else if pathSig p ∈ st.sigs then (false, st)
  else (true, ⟨pathSig p :: st.sigs, st.paths ++ [p]⟩)

/-- Feeding a whole candidate list through the deduplicator. -/
def runDedup (ps : List PathObj) (st : DedupState) : DedupState :=
  ps.foldl (fun s p => (add_path_if_new s p).2) st

/-! ## Layer classifier (`get_layer_from_color`) -/

/-- Grayscale luminance `r*0.2989 + g*0.5870 + b*0.1140`. -/
def lum (r g b : ℚ) : ℚ :=
  r * (2989 / 10000) + g * (5870 / 10000) + b * (1140 / 10000)

/-- `get_layer_from_color`: luminance buckets to layer tags; `none`
means background (excluded).  The three width sub-branches of the dark
bucket all return the same tag, as in the source. -/
def get_layer_from_color (r g b strokeW : ℚ) : Option String :=
  if lum r g b < 50 then
    if strokeW > 3 then some "base_building"
    else if strokeW > 3 / 2 then some "base_building"
    else some "base_building"
  else if lum r g b < 150 then some "annotations"
  else if lum r g b < 200 then some "grid_lines"
  else none

/-! ## Collinear segment merger (`merge_collinear_lines`) -/

/-- A 4-coordinate line segment `[x1, y1, x2, y2]`. -/
structure Seg where
  x1 : ℚ
  y1 : ℚ
  x2 : ℚ
  y2 : ℚ
deriving DecidableEq, Repr

/-- The two endpoints of a segment. -/
def segEnds (s : Seg) : List (ℚ × ℚ) := [(s.x1, s.y1), (s.x2, s.y2)]

/-- Two points coincide within the merger's coordinate tolerance 0.5. -/
def near2 (p q : ℚ × ℚ) : Prop := |p.1 - q.1| < 1 / 2 ∧ |p.2 - q.2| < 1 / 2

instance (p q : ℚ × ℚ) : Decidable (near2 p q) := by unfold near2; infer_instance

/-- The merger's four endpoint-pairing checks between the running merged
segment `m` and another segment `o`, in source order: end-start,
start-end, end-end (reverse other), start-start (reverse merged).
Returns the fused segment of the first check that fires. -/
def tryFuse (m o : Seg) : Option Seg :=
  if |m.x2 - o.x1| < 1 / 2 ∧ |m.y2 - o.y1| < 1 / 2 then some ⟨m.x1, m.y1, o.x2, o.y2⟩
  else if |m.x1 - o.x2| < 1 / 2 ∧ |m.y1 - o.y2| < 1 / 2 then some ⟨o.x1, o.y1, m.x2, m.y2⟩
  else if |m.x2 - o.x2| < 1 / 2 ∧ |m.y2 - o.y2| < 1 / 2 then some ⟨m.x1, m.y1, o.x1, o.y1⟩
  else if |m.x1 - o.x1| < 1 / 2 ∧ |m.y1 - o.y1| < 1 / 2 then some ⟨o.x2, o.y2, m.x2, m.y2⟩
  else none

/-- Some endpoint of `s` and some endpoint of `t` coincide within
tolerance, i.e. one of the four pairing orientations fires. -/
def touches (s t : Seg) : Prop :=
  ∃ p ∈ segEnds s, ∃ q ∈ segEnds t, near2 p q

instance (s t : Seg) : Decidable (touches s t) := by unfold touches; infer_instance

/-- One pass of the merger's inner `for j` loop: try to fuse every not
yet processed segment (other than the seed `i`) into the running merged
segment, marking fused ones processed and recording whether anything
changed. -/
def passAux (i : ℕ) : List (ℕ × Seg) → Seg → Finset ℕ → Bool → Seg × Finset ℕ × Bool
  | [], m, proc, ch => (m, proc, ch)
  | (j, o) :: rest, m, proc, ch =>
    if j = i ∨ j ∈ proc then passAux i rest m proc ch
    else
      match tryFuse m o with
      | some m2 => passAux i rest m2 (insert j proc) true
      | none => passAux i rest m proc ch

/-- The merger's `while changed` loop, with fuel; each changed pass
processes at least one new index, so `js.length + 1` fuel reaches the
fixed point. -/
def mergeLoop (i : ℕ) (js : List (ℕ × Seg)) : ℕ → Seg → Finset ℕ → Seg × Finset ℕ
  | 0, m, proc => (m, proc)
  | fuel + 1, m, proc =>
    match passAux i js m proc false with
    | (m2, proc2, true) => mergeLoop i js fuel m2 proc2
    | (m2, proc2, false) => (m2, proc2)

/-- The merger's outer `for i, line1` loop over one group: start a chain
at every unprocessed segment, extend it to a fixed point, emit it. -/
def mergeGroupGo (allL : List (ℕ × Seg)) : List (ℕ × Seg) → Finset ℕ → List Seg
  | [], _ => []
  | (i, l) :: rest, proc =>
    if i ∈ proc then mergeGroupGo allL rest proc
    else
      let r := mergeLoop i allL (allL.length + 1) l proc
      r.1 :: mergeGroupGo allL rest (insert i r.2)

/-- Merging one group of same-keyed segments. -/
def mergeSegs (gls : List Seg) : List Seg := mergeGroupGo gls.enum gls.enum ∅

/-- The merge grouping key `(stroke, strokeWidth, layer)`. -/
abbrev MKey := String × ℚ × String

/-- Key of a path for merge grouping. -/
def keyOf (p : PathObj) : MKey := (p.stroke, p.strokeWidth, p.layer)

/-- A path the merger treats as a line: `type == "line"` with at least
4 points. -/
def isMergeLine (p : PathObj) : Bool := decide (p.ptype = "line" ∧ 4 ≤ p.points.length)

/-- The segment read off a line path's first four coordinates
(`[x1, y1, x2, y2] = line["points"]`). -/
def segOf (p : PathObj) : Seg :=
  ⟨p.points.getD 0 0, p.points.getD 1 0, p.points.getD 2 0, p.points.getD 3 0⟩

/-- Rebuilding a merged line dict from a group key and a segment. -/
def segPath (k : MKey) (s : Seg) : PathObj :=
  ⟨"line", [s.x1, s.y1, s.x2, s.y2], k.1, k.2.1, none, k.2.2⟩

/-- One step of collecting group keys in first-occurrence order. -/
def keyStep (acc : List MKey) (l : PathObj) : List MKey :=
  if keyOf l ∈ acc then acc else acc ++ [keyOf l]

/-- Group keys in first-occurrence order, as a python dict would hold
them. -/
def groupKeys (ls : List PathObj) : List MKey := ls.foldl keyStep []

/-- Merging the lines of one group key. -/
def mergeGroup (k : MKey) (gls : List PathObj) : List PathObj :=
  (mergeSegs (gls.map segOf)).map (segPath k)

/-- The per-group merged outputs, one list per key. -/
def mergedGroups (paths : List PathObj) : List (List PathObj) :=
  (groupKeys (paths.filter isMergeLine)).map fun k =>
    mergeGroup k ((paths.filter isMergeLine).filter fun l => decide (keyOf l = k))

/-- `merge_collinear_lines`: group line paths by key, fuse chains of
touching segments within each group, pass everything else through. -/
def merge_collinear_lines (paths : List PathObj) : List PathObj :=
  if paths.length < 2 then paths
  else if (paths.filter isMergeLine).isEmpty then paths
  else (mergedGroups paths).flatten ++ paths.filter fun p => !isMergeLine p

/-- The indices occurring in an enumerated group. -/
def idxF (js : List (ℕ × Seg)) : Finset ℕ := (js.map Prod.fst).toFinset

/-- The endpoints of the not yet processed segments of a group. -/
def endSet (js : List (ℕ × Seg)) (proc : Finset ℕ) : Set (ℚ × ℚ) :=
  {e | ∃ jo ∈ js, jo.1 ∉ proc ∧ e ∈ segEnds jo.2}

/-- Python destructures each line's points as exactly four values; the
faithful domain of the merger is inputs whose line paths carry exactly
four coordinates. -/
def MergeWF (paths : List PathObj) : Prop :=
  ∀ p ∈ paths, p.ptype = "line" → 4 ≤ p.points.length → p.points.length = 4

instance (paths : List PathObj) : Decidable (MergeWF paths) := by
  unfold MergeWF; infer_instance

/-! ## Pixel-scan line detector (`extract_lines_from_pixmap`) -/

/-- A rendered raster buffer: height, width, channel count and the flat
sample bytes, as delivered by the rendering collaborator. -/
structure Pixmap where
  w : ℕ
  h : ℕ
  n : ℕ
  samples : List ℕ
deriving DecidableEq, Repr

/-- Sample byte of channel `c` at pixel `(y, x)`. -/
def px (pix : Pixmap) (y x c : ℕ) : ℕ :=
  pix.samples.getD ((y * pix.w + x) * pix.n + c) 0

/-- The `(r, g, b)` channels of a pixel: the three channels when `n = 3`,
otherwise channel 0 replicated, as in the source's channel handling. -/
def chans (pix : Pixmap) (y x : ℕ) : ℕ × ℕ × ℕ :=
  if pix.n = 3 then (px pix y x 0, px pix y x 1, px pix y x 2)
  else (px pix y x 0, px pix y x 0, px pix y x 0)

/-- The uint8 grayscale value used against the darkness threshold:
truncated weighted luminance for 3-channel buffers, channel 0 otherwise. -/
def grayAt (pix : Pixmap) (y x : ℕ) : ℕ :=
  if pix.n = 3 then
    (px pix y x 0 * 2989 + px pix y x 1 * 5870 + px pix y x 2 * 1140) / 10000
  else px pix y x 0

/-- Hex digit character for a value below 16. -/
def hexDigit (v : ℕ) : Char := "0123456789abcdef".toList.getD v '0'

/-- Two lowercase hex digits of one byte. -/
def byteHex (v : ℕ) : String := String.mk [hexDigit (v / 16 % 16), hexDigit (v % 16)]

/-- `rgb_to_hex`: `#rrggbb` lowercase. -/
def rgb_to_hex (r g b : ℕ) : String := "#" ++ byteHex r ++ byteHex g ++ byteHex b

/-- The layer of a pixel as the scan computes it: classifier on the
pixel's channels with estimated width `1 * scale_factor = 1/4`. -/
def layerAt (pix : Pixmap) (y x : ℕ) : Option String :=
  get_layer_from_color ((chans pix y x).1 : ℚ) ((chans pix y x).2.1 : ℚ)
    ((chans pix y x).2.2 : ℚ) (1 / 4)

/-- Perpendicular probe of `detect_stroke_width` for a horizontal line:
walk offsets outward, adding a dark pixel below then one above, stopping
at the first failure on either side (offsets 1..9, as `range(1, 10)`). -/
def probeH (pix : Pixmap) (x y : ℕ) : ℕ → ℕ → ℕ → ℕ
  | 0, _, wd => wd
  | rem + 1, off, wd =>
    if y + off < pix.h ∧ grayAt pix (y + off) x < 240 then
      if off ≤ y ∧ grayAt pix (y - off) x < 240 then probeH pix x y rem (off + 1) (wd + 2)
      else wd + 1
    else wd

/-- Perpendicular probe for a vertical line: right then left. -/
def probeV (pix : Pixmap) (x y : ℕ) : ℕ → ℕ → ℕ → ℕ
  | 0, _, wd => wd
  | rem + 1, off, wd =>
    if x + off < pix.w ∧ grayAt pix y (x + off) < 240 then
      if off ≤ x ∧ grayAt pix y (x - off) < 240 then probeV pix x y rem (off + 1) (wd + 2)
      else wd + 1
    else wd

/-- `detect_stroke_width`: contiguous dark pixels counted perpendicular
to the run, at least 1. -/
def detect_stroke_width (pix : Pixmap) (x y : ℕ) (horiz : Bool) : ℕ :=
  if horiz then max 1 (probeH pix x y 9 1 1) else max 1 (probeV pix x y 9 1 1)

/-- Scanner state for one row or column: run start index, consecutive
gap count, and the color and layer captured at run start. -/
structure ScanSt where
  lineStart : Option ℕ
  gap : ℕ
  color : Option String
  layer : Option String
deriving DecidableEq, Repr

/-- Initial scanner state. -/
def scanInit : ScanSt := ⟨none, 0, none, none⟩

/-- A horizontal line primitive emitted at row `y` when the run from `s`
ends at pixel `x` with trailing gap `g`. -/
def mkHLine (pix : Pixmap) (y s x g : ℕ) (c ly : Option String) : PathObj :=
  { ptype := "line"
    points := [(s : ℚ) * (1 / 4), (y : ℚ) * (1 / 4), ((x : ℚ) - (g : ℚ)) * (1 / 4),
      (y : ℚ) * (1 / 4)]
    stroke := c.getD "#000000"
    strokeWidth := max (1 / 10) ((detect_stroke_width pix s y true : ℚ) * (1 / 4) * (1 / 2))
    fill := none
    layer := ly.getD "base_building" }

/-- The non-run branch of the horizontal scan (background-classified or
above-threshold pixel): bump the gap, and end the run when the gap
tolerance 3 is exceeded, emitting if the run is longer than 0.5 page
units. -/
def hGapStep (pix : Pixmap) (y : ℕ) (st : ScanSt) (x : ℕ) : ScanSt × List PathObj :=
  let g := st.gap + 1
  match st.lineStart with
  | some s =>
    if 3 < g then
      (⟨none, g, none, none⟩,
        if (1 / 2 : ℚ) < ((x : ℚ) - (s : ℚ) - (g : ℚ)) * (1 / 4) then
          [mkHLine pix y s x g st.color st.layer]
        else [])
    else (⟨some s, g, st.color, st.layer⟩, [])
  | none => (⟨none, g, st.color, st.layer⟩, [])

/-- One pixel of the horizontal scan at row `y`. -/
def hStep (pix : Pixmap) (y : ℕ) (st : ScanSt) (x : ℕ) : ScanSt × List PathObj :=
  if grayAt pix y x < 240 then
    match layerAt pix y x with
    | none => hGapStep pix y st x
    | some ly =>
      match st.lineStart with
      | none =>
        (⟨some x, 0,
          some (rgb_to_hex (chans pix y x).1 (chans pix y x).2.1 (chans pix y x).2.2),
          some ly⟩, [])
      | some s => (⟨some s, 0, st.color, st.layer⟩, [])
  else hGapStep pix y st x

/-- Accumulating fold step of the horizontal scan. -/
def hFold (pix : Pixmap) (y : ℕ) (acc : ScanSt × List PathObj) (x : ℕ) :
    ScanSt × List PathObj :=
  ((hStep pix y acc.1 x).1, acc.2 ++ (hStep pix y acc.1 x).2)

/-- The full horizontal scan of row `y`, with the run-to-edge emission. -/
def scanRowH (pix : Pixmap) (y : ℕ) : List PathObj :=
  let r := (List.range pix.w).foldl (hFold pix y) (scanInit, [])
  match r.1.lineStart with
  | some s =>
    if (1 / 2 : ℚ) < ((pix.w : ℚ) - (s : ℚ)) * (1 / 4) then
      r.2 ++
        [{ ptype := "line"
           points := [(s : ℚ) * (1 / 4), (y : ℚ) * (1 / 4), (pix.w : ℚ) * (1 / 4),
             (y : ℚ) * (1 / 4)]
           stroke := r.1.color.getD "#000000"
           strokeWidth :=
             max (1 / 10) ((detect_stroke_width pix s y true : ℚ) * (1 / 4) * (1 / 2))
           fill := none
           layer := r.1.layer.getD "base_building" }]
    else r.2
  | none => r.2

/-- A vertical line primitive emitted at column `x` when the run from
`s` ends at pixel `y` with trailing gap `g`. -/
def mkVLine (pix : Pixmap) (x s y g : ℕ) (c ly : Option String) : PathObj :=
  { ptype := "line"
    points := [(x : ℚ) * (1 / 4), (s : ℚ) * (1 / 4), (x : ℚ) * (1 / 4),
      ((y : ℚ) - (g : ℚ)) * (1 / 4)]
    stroke := c.getD "#000000"
    strokeWidth := max (1 / 10) ((detect_stroke_width pix x s false : ℚ) * (1 / 4) * (1 / 2))
    fill := none
    layer := ly.getD "base_building" }

/-- The non-run branch of the vertical scan. -/
def vGapStep (pix : Pixmap) (x : ℕ) (st : ScanSt) (y : ℕ) : ScanSt × List PathObj :=
  let g := st.gap + 1
  match st.lineStart with
  | some s =>
    if 3 < g then
      (⟨none, g, none, none⟩,
        if (1 / 2 : ℚ) < ((y : ℚ) - (s : ℚ) - (g : ℚ)) * (1 / 4) then
          [mkVLine pix x s y g st.color st.layer]
        else [])
    else (⟨some s, g, st.color, st.layer⟩, [])
  | none => (⟨none, g, st.color, st.layer⟩, [])

/-- One pixel of the vertical scan at column `x`. -/
def vStep (pix : Pixmap) (x : ℕ) (st : ScanSt) (y : ℕ) : ScanSt × List PathObj :=
  if grayAt pix y x < 240 then
    match layerAt pix y x with
    | none => vGapStep pix x st y
    | some ly =>
      match st.lineStart with
      | none =>
        (⟨some y, 0,
          some (rgb_to_hex (chans pix y x).1 (chans pix y x).2.1 (chans pix y x).2.2),
          some ly⟩, [])
      | some s => (⟨some s, 0, st.color, st.layer⟩, [])
  else vGapStep pix x st y

/-- Accumulating fold step of the vertical scan. -/
def vFold (pix : Pixmap) (x : ℕ) (acc : ScanSt × List PathObj) (y : ℕ) :
    ScanSt × List PathObj :=
  ((vStep pix x acc.1 y).1, acc.2 ++ (vStep pix x acc.1 y).2)

/-- The full vertical scan of column `x`, with the run-to-edge emission. -/
def scanColV (pix : Pixmap) (x : ℕ) : List PathObj :=
  let r := (List.range pix.h).foldl (vFold pix x) (scanInit, [])
  match r.1.lineStart with
  | some s =>
    if (1 / 2 : ℚ) < ((pix.h : ℚ) - (s : ℚ)) * (1 / 4) then
      r.2 ++
        [{ ptype := "line"
           points := [(x : ℚ) * (1 / 4), (s : ℚ) * (1 / 4), (x : ℚ) * (1 / 4),
             (pix.h : ℚ) * (1 / 4)]
           stroke := r.1.color.getD "#000000"
           strokeWidth :=
             max (1 / 10) ((detect_stroke_width pix x s false : ℚ) * (1 / 4) * (1 / 2))
           fill := none
           layer := r.1.layer.getD "base_building" }]
    else r.2
  | none => r.2

/-- The numpy pathway of the detector: every row left to right, then
every column top to bottom, each candidate handed to the deduplicator in
emission order (here collected as a list). -/
def numpyScan (pix : Pixmap) : List PathObj :=
  ((List.range pix.h).map (scanRowH pix)).flatten ++
    ((List.range pix.w).map (scanColV pix)).flatten

/-! ## Fallback detector (`extract_lines_fallback`) -/

/-- Fallback channels: channel 0 replicated when `n = 1`, else the first
three samples of the pixel. -/
def fchans (pix : Pixmap) (y x : ℕ) : ℕ × ℕ × ℕ :=
  if pix.n = 1 then (px pix y x 0, px pix y x 0, px pix y x 0)
  else (px pix y x 0, px pix y x 1, px pix y x 2)

/-- Fallback single-channel luminance: the sample itself when `n = 1`,
otherwise the truncated average of the three color channels. -/
def fval (pix : Pixmap) (y x : ℕ) : ℕ :=
  if pix.n = 1 then px pix y x 0
  else (px pix y x 0 + px pix y x 1 + px pix y x 2) / 3

/-- Fallback scanner state: no gap bridging. -/
structure FSt where
  lineStart : Option ℕ
  color : Option String
  layer : Option String
deriving DecidableEq, Repr

/-- Initial fallback scanner state. -/
def fInit : FSt := ⟨none, none, none⟩

/-- The fallback's fixed default stroke width `0.5 * scale_factor`. -/
def fallbackWidth : ℚ := (1 / 2) * (1 / 4)

/-- One pixel of the fallback horizontal scan at row `y`. -/
def fStepH (pix : Pixmap) (y : ℕ) (st : FSt) (x : ℕ) : FSt × List PathObj :=
  if fval pix y x < 240 then
    match get_layer_from_color ((fchans pix y x).1 : ℚ) ((fchans pix y x).2.1 : ℚ)
        ((fchans pix y x).2.2 : ℚ) (1 / 4) with
    | some ly =>
      match st.lineStart with
      | none =>
        (⟨some x, some (rgb_to_hex (fchans pix y x).1 (fchans pix y x).2.1
          (fchans pix y x).2.2), some ly⟩, [])
      | some s => (⟨some s, st.color, st.layer⟩, [])
    | none => (st, [])
  else
    match st.lineStart with
    | some s =>
      (⟨none, none, none⟩,
        if (1 / 2 : ℚ) < ((x : ℚ) - (s : ℚ)) * (1 / 4) then
          [{ ptype := "line"
             points := [(s : ℚ) * (1 / 4), (y : ℚ) * (1 / 4), (x : ℚ) * (1 / 4),
               (y : ℚ) * (1 / 4)]
             stroke := st.color.getD "#000000"
             strokeWidth := fallbackWidth
             fill := none
             layer := st.layer.getD "base_building" }]
        else [])
    | none => (st, [])

/-- The fallback horizontal scan of row `y`, with run-to-edge emission. -/
def fRowH (pix : Pixmap) (y : ℕ) : List PathObj :=
  let r := (List.range pix.w).foldl
    (fun acc x => ((fStepH pix y acc.1 x).1, acc.2 ++ (fStepH pix y acc.1 x).2))
    (fInit, [])
  match r.1.lineStart with
  | some s =>
    if (1 / 2 : ℚ) < ((pix.w : ℚ) - (s : ℚ)) * (1 / 4) then
      r.2 ++
        [{ ptype := "line"
           points := [(s : ℚ) * (1 / 4), (y : ℚ) * (1 / 4), (pix.w : ℚ) * (1 / 4),
             (y : ℚ) * (1 / 4)]
           stroke := r.1.color.getD "#000000"
           strokeWidth := fallbackWidth
           fill := none
           layer := r.1.layer.getD "base_building" }]
    else r.2
  | none => r.2

/-- One pixel of the fallback vertical scan at column `x`. -/
def fStepV (pix : Pixmap) (x : ℕ) (st : FSt) (y : ℕ) : FSt × List PathObj :=
  if fval pix y x < 240 then
    match get_layer_from_color ((fchans pix y x).1 : ℚ) ((fchans pix y x).2.1 : ℚ)
        ((fchans pix y x).2.2 : ℚ) (1 / 4) with
    | some ly =>
      match st.lineStart with
      | none =>
        (⟨some y, some (rgb_to_hex (fchans pix y x).1 (fchans pix y x).2.1
          (fchans pix y x).2.2), some ly⟩, [])
      | some s => (⟨some s, st.color, st.layer⟩, [])
    | none => (st, [])
  else
    match st.lineStart with
    | some s =>
      (⟨none, none, none⟩,
        if (1 / 2 : ℚ) < ((y : ℚ) - (s : ℚ)) * (1 / 4) then
          [{ ptype := "line"
             points := [(x : ℚ) * (1 / 4), (s : ℚ) * (1 / 4), (x : ℚ) * (1 / 4),
               (y : ℚ) * (1 / 4)]
             stroke := st.color.getD "#000000"
             strokeWidth := fallbackWidth
             fill := none
             layer := st.layer.getD "base_building" }]
        else [])
    | none => (st, [])

/-- The fallback vertical scan of column `x`, with run-to-edge emission. -/
def fColV (pix : Pixmap) (x : ℕ) : List PathObj :=
  let r := (List.range pix.h).foldl
    (fun acc y => ((fStepV pix x acc.1 y).1, acc.2 ++ (fStepV pix x acc.1 y).2))
    (fInit, [])
  match r.1.lineStart with
  | some s =>
    if (1 / 2 : ℚ) < ((pix.h : ℚ) - (s : ℚ)) * (1 / 4) then
      r.2 ++
        [{ ptype := "line"
           points := [(x : ℚ) * (1 / 4), (s : ℚ) * (1 / 4), (x : ℚ) * (1 / 4),
             (pix.h : ℚ) * (1 / 4)]
           stroke := r.1.color.getD "#000000"
           strokeWidth := fallbackWidth
           fill := none
           layer := r.1.layer.getD "base_building" }]
    else r.2
  | none => r.2

/-- `extract_lines_fallback`: averaged-luminance scan of every row and
column with the fixed default stroke width. -/
def extract_lines_fallback (pix : Pixmap) : List PathObj :=
  ((List.range pix.h).map (fRowH pix)).flatten ++
    ((List.range pix.w).map (fColV pix)).flatten

/-- The numpy reshape of the sample buffer succeeds exactly when the
buffer has `h * w * n` bytes; a mismatch raises and lands in the
`except` handler. -/
def reshapeOk (pix : Pixmap) : Prop := pix.samples.length = pix.h * pix.w * pix.n

instance (pix : Pixmap) : Decidable (reshapeOk pix) := by unfold reshapeOk; infer_instance

/-- `extract_lines_from_pixmap`: the `try` body runs the numpy pathway
only when numpy is importable; an exception in it (unreadable buffer)
falls back to `extract_lines_fallback`.  Without numpy the `try` body is
empty — no exception, so no fallback, and no candidates. -/
def extract_lines_from_pixmap (hasNumpy : Bool) (pix : Pixmap) : List PathObj :=
  if hasNumpy then
    if reshapeOk pix then numpyScan pix else extract_lines_fallback pix
  else []

/-! ## Text normalizer and output assembler -/

/-- A raw text span from the collaborator: bounding box, literal text,
font size and name, and the rotation already derived from the line's
direction vector. -/
structure RawSpan where
  x0 : ℚ
  y0 : ℚ
  x1 : ℚ
  y1 : ℚ
  text : String
  size : ℚ
  font : String
  rot : ℚ
deriving DecidableEq, Repr

/-- Text normalization: drop spans whose trimmed text is empty, keep the
trimmed text, exact font size, font name and rotation, positioned at the
bbox top-left. -/
def normalizeTexts (spans : List RawSpan) : List TextRun :=
  spans.filterMap fun s =>
    if s.text.trim = "" then none
    else some ⟨s.x0, s.y0, s.text.trim, s.size, s.font, s.rot⟩

/-- The output assembler: merged paths, normalized texts, page bounds,
and `isVector = len(paths) > 0 or len(texts) > 10`. -/
def assembleOutput (texts : List TextRun) (paths : List PathObj) (w hgt : ℚ) :
    ExtractionResult :=
  ⟨texts, paths, ⟨w, hgt⟩, decide (0 < paths.length ∨ 10 < texts.length), none⟩

/-- Everything the collaborator hands the core for one successfully
opened page: bounds, the rendered raster (or the exception that the
rendering raised, absorbed by the inner handler), and the raw spans. -/
structure Page where
  width : ℚ
  height : ℚ
  pixres : Except String Pixmap
  spans : List RawSpan

/-- `extract_pdf_vectors`: the top-level transform.  The argument is the
outcome of opening and reading the page; an exception anywhere in the
body is caught and turned into the all-empty result carrying the
message. -/
def extract_pdf_vectors (hasNumpy : Bool) (inp : Except String Page) : ExtractionResult :=
  match inp with
  | .error e => ⟨[], [], ⟨0, 0⟩, false, some e⟩
  | .ok pg =>
    let cands := match pg.pixres with
      | .ok pix => extract_lines_from_pixmap hasNumpy pix
      | .error _ => []
    let deduped := (runDedup cands dedupInit).paths
    assembleOutput (normalizeTexts pg.spans) (merge_collinear_lines deduped)
      pg.width pg.height

/-! ## Concrete inputs used in instantiations -/

/-- A sample text run. -/
def dummyRun : TextRun := ⟨0, 0, "x", 8, "Arial", 0⟩

/-- A sample line path. -/
def dummyPath : PathObj := ⟨"line", [0, 0, 4, 0], "#000000", 1, none, "base_building"⟩

/-- A horizontal black line from `(0,0)` to `(10,0)`. -/
def c6a : PathObj := ⟨"line", [0, 0, 10, 0], "#000000", 1, none, "base_building"⟩

/-- A horizontal black line from `(10,0)` back to `(3,0)`, overlapping
`c6a`. -/
def c6b : PathObj := ⟨"line", [10, 0, 3, 0], "#000000", 1, none, "base_building"⟩

/-- The single line the merger produces from `[c6a, c6b]`. -/
def c6m : PathObj := ⟨"line", [0, 0, 3, 0], "#000000", 1, none, "base_building"⟩

/-- A black 1pt line. -/
def bgBlack : PathObj := ⟨"line", [0, 0, 10, 0], "#000000", 1, none, "base_building"⟩

/-- A grey 1pt line at the same position as `bgBlack`. -/
def bgGrey : PathObj := ⟨"line", [0, 0, 10, 0], "#969696", 1, none, "annotations"⟩

/-- Three lines, two of them fusable within one group and one in a
second group. -/
def ex8 : List PathObj :=
  [⟨"line", [0, 0, 1, 0], "#000000", 1, none, "base_building"⟩,
   ⟨"line", [8 / 5, 0, 3, 0], "#000000", 1, none, "base_building"⟩,
   ⟨"line", [8 / 5, 0, 6 / 5, 0], "#000000", 1, none, "base_building"⟩,
   ⟨"line", [0, 0, 3, 0], "#969696", 1, none, "annotations"⟩]

/-- A 8x1 RGB raster whose first 6 pixels are black and last 2 white. -/
def pixDark : Pixmap := ⟨8, 1, 3, List.replicate 18 0 ++ List.replicate 6 255⟩

/-- An unreadable raster: declared 8x1x3 but only 5 sample bytes, so the
numpy reshape raises. -/
def pixBad : Pixmap := ⟨8, 1, 3, List.replicate 5 0⟩

/-- An all-white 1x1 RGB raster. -/
def pixWhite : Pixmap := ⟨1, 1, 3, [255, 255, 255]⟩

/-- A span with real text. -/
def spanA : RawSpan := ⟨1, 2, 3, 4, "Hello", 10, "Arial", 0⟩

/-- A span whose text trims to empty. -/
def spanEmpty : RawSpan := ⟨5, 6, 7, 8, "   ", 10, "Arial", 0⟩

/-! ## Theorems -/

/-- C1: if opening or processing the page raises an exception, the
extractor still returns the structurally valid result with empty texts
and paths, zero bounds, `isVector = false` and the exception message in
`error`; the transform is total, so nothing propagates to the caller. -/
theorem C1_failure_returns_empty_result (hasNumpy : Bool) (msg : String) :
    extract_pdf_vectors hasNumpy (Except.error msg) =
      ⟨[], [], ⟨0, 0⟩, false, some msg⟩ := rfl

/-- C2: for every assembled result, `isVector` is true iff the paths
list is non-empty or there are strictly more than 10 text runs; in
particular 0 paths with 5 texts give false, 0 paths with 11 texts give
true, and 1 path with 0 texts gives true. -/
theorem C2_isVector_iff :
    (∀ (texts : List TextRun) (paths : List PathObj) (w hgt : ℚ),
      ((assembleOutput texts paths w hgt).isVector = true ↔
        paths ≠ [] ∨ 10 < texts.length))
    ∧ (assembleOutput (List.replicate 5 dummyRun) [] 0 0).isVector = false
    ∧ (assembleOutput (List.replicate 11 dummyRun) [] 0 0).isVector = true
    ∧ (assembleOutput [] [dummyPath] 0 0).isVector = true := by
  refine ⟨fun texts paths w hgt => ?_, rfl, rfl, rfl⟩
  simp [assembleOutput, List.length_pos]

/-- C4: `add_path_if_new` computes the signature from the kind, the
first five coordinate pairs rounded to one decimal, the stroke color and
the width rounded to two decimals; it admits only signatures not seen
before, returns true exactly on admission, and leaves both the result
set and the signature set unchanged on rejection. -/
theorem C4_dedup_admission (st : DedupState) (p : PathObj) :
    pathSig p = (p.ptype, (p.points.take 10).map round1, p.stroke, round2 p.strokeWidth)
    ∧ ((add_path_if_new st p).1 = true → pathSig p ∉ st.sigs)
    ∧ ((add_path_if_new st p).1 = true →
        (add_path_if_new st p).2 = ⟨pathSig p :: st.sigs, st.paths ++ [p]⟩)
    ∧ ((add_path_if_new st p).1 = false → (add_path_if_new st p).2 = st) := by
  refine ⟨rfl, ?_, ?_, ?_⟩ <;> unfold add_path_if_new <;> split_ifs <;> simp_all

/-- Witness for C4 at a concrete state and candidate. -/
theorem C4_dedup_admission_witness :
    (add_path_if_new dedupInit dummyPath).2 = ⟨[pathSig dummyPath], [dummyPath]⟩ :=
  (C4_dedup_admission dedupInit dummyPath).2.2.1 (by with_unfolding_all decide)

/-- Unfolding one dedup step. -/
theorem runDedup_cons (p : PathObj) (ps : List PathObj) (st : DedupState) :
    runDedup (p :: ps) st = runDedup ps (add_path_if_new st p).2 := rfl

/-- One dedup step never removes signatures. -/
theorem add_sigs_subset (st : DedupState) (p : PathObj) :
    st.sigs ⊆ (add_path_if_new st p).2.sigs := by
  unfold add_path_if_new
  split_ifs <;> simp [List.subset_cons_self]

/-- A dedup run never removes signatures. -/
theorem runDedup_sigs_mono (ps : List PathObj) (st : DedupState) :
    st.sigs ⊆ (runDedup ps st).sigs := by
  induction ps generalizing st with
  | nil => exact fun s hs => hs
  | cons p rest ih =>
    intro s hs
    rw [runDedup_cons]
    exact ih _ (add_sigs_subset st p hs)

/-- After a dedup run, the signature of every candidate with points is
in the signature set. -/
theorem runDedup_mem_sigs (ps : List PathObj) (st : DedupState) (p : PathObj)
    (hp : p ∈ ps) (hne : p.points ≠ []) : pathSig p ∈ (runDedup ps st).sigs := by
  induction ps generalizing st with
  | nil => cases hp
  | cons q rest ih =>
    rcases List.mem_cons.mp hp with h | h
    · subst h
      rw [runDedup_cons]
      apply runDedup_sigs_mono
      unfold add_path_if_new
      split_ifs with h1 h2 <;> simp_all
    · rw [runDedup_cons]
      exact ih _ h

/-- A candidate with no points or an already seen signature is a
no-op. -/
theorem add_noop (st : DedupState) (p : PathObj)
    (h : p.points = [] ∨ pathSig p ∈ st.sigs) : add_path_if_new st p = (false, st) := by
  unfold add_path_if_new
  rcases h with h | h <;> split_ifs <;> simp_all

/-- A dedup run over candidates that are all empty or already seen
leaves the state unchanged. -/
theorem runDedup_noop (ps : List PathObj) (st : DedupState)
    (h : ∀ p ∈ ps, p.points = [] ∨ pathSig p ∈ st.sigs) : runDedup ps st = st := by
  induction ps with
  | nil => rfl
  | cons p rest ih =>
    rw [runDedup_cons, add_noop st p (h p (List.mem_cons_self p rest))]
    exact ih fun q hq => h q (List.mem_cons_of_mem p hq)

/-- C5: deduplication is idempotent — feeding the same candidate list
through the deduplicator twice admits exactly the set admitted by one
pass. -/
theorem C5_dedup_idempotent (ps : List PathObj) :
    runDedup ps (runDedup ps dedupInit) = runDedup ps dedupInit := by
  apply runDedup_noop
  intro p hp
  by_cases h : p.points = []
  · exact Or.inl h
  · exact Or.inr (runDedup_mem_sigs ps dedupInit p hp h)

/-- C9: a raw span whose text trims to empty is silently dropped — no
run with empty text reaches the result, and removing such a span leaves
the normalization of all other spans unchanged. -/
theorem C9_empty_text_dropped :
    (∀ (spans : List RawSpan) (t : TextRun), t ∈ normalizeTexts spans → t.text ≠ "")
    ∧ (∀ (xs ys : List RawSpan) (s : RawSpan), s.text.trim = "" →
        normalizeTexts (xs ++ s :: ys) = normalizeTexts (xs ++ ys)) := by
  constructor
  · intro spans t ht
    rcases List.mem_filterMap.mp ht with ⟨s, _, hf⟩
    by_cases h : s.text.trim = ""
    · simp [h] at hf
    · simp only [if_neg h, Option.some_inj] at hf
      rw [← hf]
      exact h
  · intro xs ys s hs
    simp [normalizeTexts, hs]

/-- Witness for C9 at a concrete span list. -/
theorem C9_empty_text_dropped_witness :
    spanEmpty.text.trim = ""
    ∧ normalizeTexts [spanA, spanEmpty] = normalizeTexts [spanA]
    ∧ (⟨1, 2, "Hello", 10, "Arial", 0⟩ : TextRun).text ≠ "" :=
  ⟨by with_unfolding_all decide,
   C9_empty_text_dropped.2 [spanA] [] spanEmpty (by with_unfolding_all decide),
   C9_empty_text_dropped.1 [spanA] _ (by with_unfolding_all decide)⟩

/-- C10 evaluation: without numpy the detector's `try` body does
nothing, so the page yields no candidates and the fallback never runs,
although the fallback itself would produce the page's line with the
averaged-luminance pass and the fixed default stroke width
`0.5 * scale`; an exception in the numpy pathway (unreadable buffer)
does reach the fallback. -/
theorem C10_fallback_unreachable_without_numpy :
    extract_lines_from_pixmap false pixDark = []
    ∧ extract_lines_fallback pixDark =
        [⟨"line", [0, 0, 3 / 2, 0], "#000000", 1 / 8, none, "base_building"⟩]
    ∧ fallbackWidth = 1 / 8
    ∧ ¬ reshapeOk pixBad
    ∧ extract_lines_from_pixmap true pixBad = extract_lines_fallback pixBad := by
  refine ⟨rfl, ?_, ?_, ?_, ?_⟩
  · with_unfolding_all decide
  · with_unfolding_all decide
  · with_unfolding_all decide
  · with_unfolding_all decide

/-- One pixel step on a background-classified pixel from a runless
state: still runless, nothing emitted. -/
theorem hStep_bg (pix : Pixmap) (y x : ℕ) (st : ScanSt)
    (hst : st.lineStart = none) (hbg : layerAt pix y x = none) :
    (hStep pix y st x).1.lineStart = none ∧ (hStep pix y st x).2 = [] := by
  unfold hStep
  rw [hbg]
  split_ifs <;> (unfold hGapStep; rw [hst]; exact ⟨rfl, rfl⟩)

/-- A horizontal fold over background-classified pixels emits nothing
and stays runless. -/
theorem hFold_bg (pix : Pixmap) (y : ℕ) (l : List ℕ)
    (hl : ∀ x ∈ l, layerAt pix y x = none) :
    ∀ st out, st.lineStart = none →
      (l.foldl (hFold pix y) (st, out)).1.lineStart = none
      ∧ (l.foldl (hFold pix y) (st, out)).2 = out := by
  induction l with
  | nil => exact fun st out h => ⟨h, rfl⟩
  | cons x rest ih =>
    intro st out h
    have hx := hStep_bg pix y x st h (hl x (List.mem_cons_self x rest))
    simp only [List.foldl_cons, hFold, hx.2, List.append_nil]
    exact ih (fun z hz => hl z (List.mem_cons_of_mem x hz)) (hStep pix y st x).1 out hx.1

/-- A row of background-classified pixels yields no horizontal
candidates. -/
theorem scanRowH_bg (pix : Pixmap) (y : ℕ)
    (hbg : ∀ x < pix.w, layerAt pix y x = none) : scanRowH pix y = [] := by
  unfold scanRowH
  have h := hFold_bg pix y (List.range pix.w)
    (fun x hx => hbg x (List.mem_range.mp hx)) scanInit [] rfl
  simp only [h.1, h.2]

/-- One vertical pixel step on a background-classified pixel from a
runless state: still runless, nothing emitted. -/
theorem vStep_bg (pix : Pixmap) (x y : ℕ) (st : ScanSt)
    (hst : st.lineStart = none) (hbg : layerAt pix y x = none) :
    (vStep pix x st y).1.lineStart = none ∧ (vStep pix x st y).2 = [] := by
  unfold vStep
  rw [hbg]
  split_ifs <;> (unfold vGapStep; rw [hst]; exact ⟨rfl, rfl⟩)

/-- A vertical fold over background-classified pixels emits nothing and
stays runless. -/
theorem vFold_bg (pix : Pixmap) (x : ℕ) (l : List ℕ)
    (hl : ∀ y ∈ l, layerAt pix y x = none) :
    ∀ st out, st.lineStart = none →
      (l.foldl (vFold pix x) (st, out)).1.lineStart = none
      ∧ (l.foldl (vFold pix x) (st, out)).2 = out := by
  induction l with
  | nil => exact fun st out h => ⟨h, rfl⟩
  | cons y rest ih =>
    intro st out h
    have hy := vStep_bg pix x y st h (hl y (List.mem_cons_self y rest))
    simp only [List.foldl_cons, vFold, hy.2, List.append_nil]
    exact ih (fun z hz => hl z (List.mem_cons_of_mem y hz)) (vStep pix x st y).1 out hy.1

/-- A column of background-classified pixels yields no vertical
candidates. -/
theorem scanColV_bg (pix : Pixmap) (x : ℕ)
    (hbg : ∀ y < pix.h, layerAt pix y x = none) : scanColV pix x = [] := by
  unfold scanColV
  have h := vFold_bg pix x (List.range pix.h)
    (fun y hy => hbg y (List.mem_range.mp hy)) scanInit [] rfl
  simp only [h.1, h.2]

/-- C3: the layer classifier is a pure function of color and width:
luminance below 50 gives the structural tier at any width, 50 to 150
the annotation tier, 150 to 200 the grid tier, and at or above 200 the
background classification `none`; `#000000` is structural at every
width and `#969696` is annotation; and a raster all of whose pixels are
classified background yields no candidate primitive from the pixel
scan. -/
theorem C3_layer_classifier :
    (∀ r g b sw : ℚ, lum r g b < 50 →
      get_layer_from_color r g b sw = some "base_building")
    ∧ (∀ r g b sw : ℚ, 50 ≤ lum r g b → lum r g b < 150 →
      get_layer_from_color r g b sw = some "annotations")
    ∧ (∀ r g b sw : ℚ, 150 ≤ lum r g b → lum r g b < 200 →
      get_layer_from_color r g b sw = some "grid_lines")
    ∧ (∀ r g b sw : ℚ, 200 ≤ lum r g b → get_layer_from_color r g b sw = none)
    ∧ (∀ sw : ℚ, get_layer_from_color 0 0 0 sw = some "base_building")
    ∧ (∀ sw : ℚ, get_layer_from_color 150 150 150 sw = some "annotations")
    ∧ (∀ pix : Pixmap, (∀ y < pix.h, ∀ x < pix.w, layerAt pix y x = none) →
      numpyScan pix = []) := by
  have h1 : ∀ r g b sw : ℚ, lum r g b < 50 →
      get_layer_from_color r g b sw = some "base_building" := by
    intro r g b sw h
    unfold get_layer_from_color
    split_ifs <;> first | rfl | linarith
  have h2 : ∀ r g b sw : ℚ, 50 ≤ lum r g b → lum r g b < 150 →
      get_layer_from_color r g b sw = some "annotations" := by
    intro r g b sw ha hb
    unfold get_layer_from_color
    split_ifs <;> first | rfl | linarith
  have h3 : ∀ r g b sw : ℚ, 150 ≤ lum r g b → lum r g b < 200 →
      get_layer_from_color r g b sw = some "grid_lines" := by
    intro r g b sw ha hb
    unfold get_layer_from_color
    split_ifs <;> first | rfl | linarith
  have h4 : ∀ r g b sw : ℚ, 200 ≤ lum r g b → get_layer_from_color r g b sw = none := by
    intro r g b sw h
    unfold get_layer_from_color
    split_ifs <;> first | rfl | linarith
  refine ⟨h1, h2, h3, h4, ?_, ?_, ?_⟩
  · intro sw
    apply h1
    unfold lum
    norm_num
  · intro sw
    apply h2 <;> unfold lum <;> norm_num
  · intro pix hbg
    unfold numpyScan
    rw [List.append_eq_nil]
    constructor
    · rw [List.flatten_eq_nil_iff]
      intro l hl
      rcases List.mem_map.mp hl with ⟨y, hy, rfl⟩
      exact scanRowH_bg pix y fun x hx => hbg y (List.mem_range.mp hy) x hx
    · rw [List.flatten_eq_nil_iff]
      intro l hl
      rcases List.mem_map.mp hl with ⟨x, hx, rfl⟩
      exact scanColV_bg pix x fun y hy => hbg y hy x (List.mem_range.mp hx)

/-- Witness for C3 at concrete colors and an all-white raster. -/
theorem C3_layer_classifier_witness :
    (lum 20 20 20 < 50 ∧ get_layer_from_color 20 20 20 5 = some "base_building")
    ∧ (50 ≤ lum 120 120 120 ∧ lum 120 120 120 < 150
        ∧ get_layer_from_color 120 120 120 1 = some "annotations")
    ∧ (150 ≤ lum 180 180 180 ∧ lum 180 180 180 < 200
        ∧ get_layer_from_color 180 180 180 1 = some "grid_lines")
    ∧ (200 ≤ lum 255 255 255 ∧ get_layer_from_color 255 255 255 1 = none)
    ∧ ((∀ y < pixWhite.h, ∀ x < pixWhite.w, layerAt pixWhite y x = none)
        ∧ numpyScan pixWhite = []) :=
  ⟨⟨by with_unfolding_all decide,
    C3_layer_classifier.1 20 20 20 5 (by with_unfolding_all decide)⟩,
   ⟨by with_unfolding_all decide, by with_unfolding_all decide,
    C3_layer_classifier.2.1 120 120 120 1 (by with_unfolding_all decide)
      (by with_unfolding_all decide)⟩,
   ⟨by with_unfolding_all decide, by with_unfolding_all decide,
    C3_layer_classifier.2.2.1 180 180 180 1 (by with_unfolding_all decide)
      (by with_unfolding_all decide)⟩,
   ⟨by with_unfolding_all decide,
    C3_layer_classifier.2.2.2.1 255 255 255 1 (by with_unfolding_all decide)⟩,
   ⟨by with_unfolding_all decide,
    C3_layer_classifier.2.2.2.2.2.2 pixWhite (by with_unfolding_all decide)⟩⟩

/-- A fused segment's endpoints come from the two fused segments. -/
theorem tryFuse_ends (m o m2 : Seg) (h : tryFuse m o = some m2) :
    ∀ e ∈ segEnds m2, e ∈ segEnds m ∨ e ∈ segEnds o := by
  unfold tryFuse at h
  split_ifs at h <;> cases h <;> (intro e he; simp only [segEnds, List.mem_cons,
    List.mem_singleton, List.not_mem_nil, or_false] at he ⊢; tauto)

/-- `touches` spelled out as the four orientation checks. -/
theorem touches_iff (s t : Seg) :
    touches s t ↔
      (|s.x2 - t.x1| < 1 / 2 ∧ |s.y2 - t.y1| < 1 / 2)
      ∨ (|s.x1 - t.x2| < 1 / 2 ∧ |s.y1 - t.y2| < 1 / 2)
      ∨ (|s.x2 - t.x2| < 1 / 2 ∧ |s.y2 - t.y2| < 1 / 2)
      ∨ (|s.x1 - t.x1| < 1 / 2 ∧ |s.y1 - t.y1| < 1 / 2) := by
  unfold touches near2 segEnds
  constructor
  · rintro ⟨p, hp, q, hq, hn⟩
    simp only [List.mem_cons, List.mem_singleton, List.not_mem_nil, or_false] at hp hq
    rcases hp with hp | hp <;> rcases hq with hq | hq <;> subst hp <;> subst hq <;> tauto
  · intro h
    rcases h with h | h | h | h
    · exact ⟨(s.x2, s.y2), by simp, (t.x1, t.y1), by simp, h⟩
    · exact ⟨(s.x1, s.y1), by simp, (t.x2, t.y2), by simp, h⟩
    · exact ⟨(s.x2, s.y2), by simp, (t.x2, t.y2), by simp, h⟩
    · exact ⟨(s.x1, s.y1), by simp, (t.x1, t.y1), by simp, h⟩

/-- The fuse attempt fails exactly when no endpoint pairing is within
tolerance. -/
theorem tryFuse_none_iff (m o : Seg) : tryFuse m o = none ↔ ¬ touches m o := by
  rw [touches_iff]
  unfold tryFuse
  split_ifs with h1 h2 h3 h4 <;> simp_all

/-- A pass only ever adds processed indices. -/
theorem passAux_proc_mono (i : ℕ) (js : List (ℕ × Seg)) :
    ∀ m proc ch, proc ⊆ (passAux i js m proc ch).2.1 := by
  induction js with
  | nil => intro m proc ch; exact Finset.Subset.refl _
  | cons jo rest ih =>
    intro m proc ch
    obtain ⟨j, o⟩ := jo
    simp only [passAux]
    split_ifs with hskip
    · exact ih m proc ch
    · cases htf : tryFuse m o with
      | some m2 => exact Finset.Subset.trans (Finset.subset_insert j proc) (ih m2 _ true)
      | none => exact ih m proc ch

/-- A pass started with the changed flag set keeps it set. -/
theorem passAux_true (i : ℕ) (js : List (ℕ × Seg)) :
    ∀ m proc, (passAux i js m proc true).2.2 = true := by
  induction js with
  | nil => intro m proc; rfl
  | cons jo rest ih =>
    intro m proc
    obtain ⟨j, o⟩ := jo
    simp only [passAux]
    split_ifs with hskip
    · exact ih m proc
    · cases htf : tryFuse m o with
      | some m2 => exact ih m2 _
      | none => exact ih m proc

/-- A pass that reports no change fused nothing: state unchanged. -/
theorem passAux_false_fix (i : ℕ) (js : List (ℕ × Seg)) :
    ∀ m proc, (passAux i js m proc false).2.2 = false →
      passAux i js m proc false = (m, proc, false) := by
  induction js with
  | nil => intro m proc _; rfl
  | cons jo rest ih =>
    intro m proc h
    obtain ⟨j, o⟩ := jo
    simp only [passAux] at h ⊢
    split_ifs with hskip
    · rw [if_pos hskip] at h
      exact ih m proc h
    · rw [if_neg hskip] at h
      cases htf : tryFuse m o with
      | some m2 =>
        rw [htf] at h
        have := passAux_true i rest m2 (insert j proc)
        rw [this] at h
        cases h
      | none =>
        rw [htf] at h
        exact ih m proc h

/-- A pass that reports a change processed a previously unprocessed
index of the list. -/
theorem passAux_progress (i : ℕ) (js : List (ℕ × Seg)) :
    ∀ m proc m2 proc2, passAux i js m proc false = (m2, proc2, true) →
      ∃ j ∈ js.map Prod.fst, j ∉ proc ∧ j ∈ proc2 := by
  induction js with
  | nil => intro m proc m2 proc2 h; cases h
  | cons jo rest ih =>
    intro m proc m2 proc2 h
    obtain ⟨j, o⟩ := jo
    simp only [passAux] at h
    split_ifs at h with hskip
    · obtain ⟨j0, hj0, hj1, hj2⟩ := ih m proc m2 proc2 h
      exact ⟨j0, by simp [hj0], hj1, hj2⟩
    · revert h
      cases htf : tryFuse m o with
      | some mf =>
        intro h
        replace h : passAux i rest mf (insert j proc) true = (m2, proc2, true) := h
        refine ⟨j, by simp, fun hc => hskip (Or.inr hc), ?_⟩
        have hmono := passAux_proc_mono i rest mf (insert j proc) true
        rw [h] at hmono
        exact hmono (Finset.mem_insert_self j proc)
      | none =>
        intro h
        replace h : passAux i rest m proc false = (m2, proc2, true) := h
        obtain ⟨j0, hj0, hj1, hj2⟩ := ih m proc m2 proc2 h
        exact ⟨j0, by simp [hj0], hj1, hj2⟩

/-- The unprocessed index count of a group is at most its length. -/
theorem idx_card_le (js : List (ℕ × Seg)) (proc : Finset ℕ) :
    (idxF js \ proc).card ≤ js.length := by
  calc (idxF js \ proc).card ≤ (idxF js).card :=
        Finset.card_le_card (Finset.sdiff_subset)
    _ ≤ (js.map Prod.fst).length := List.toFinset_card_le _
    _ = js.length := List.length_map _ _

/-- A changed pass strictly shrinks the unprocessed index set. -/
theorem pass_card_decrease (i : ℕ) (js : List (ℕ × Seg)) (m m2 : Seg)
    (proc proc2 : Finset ℕ) (h : passAux i js m proc false = (m2, proc2, true)) :
    (idxF js \ proc2).card < (idxF js \ proc).card := by
  obtain ⟨j, hj0, hj1, hj2⟩ := passAux_progress i js m proc m2 proc2 h
  have hmono := passAux_proc_mono i js m proc false
  rw [h] at hmono
  have hj3 : j ∈ idxF js \ proc :=
    Finset.mem_sdiff.mpr ⟨List.mem_toFinset.mpr hj0, hj1⟩
  apply Finset.card_lt_card
  rw [Finset.ssubset_iff_subset_ne]
  constructor
  · exact Finset.sdiff_subset_sdiff (Finset.Subset.refl _) hmono
  · intro heq
    have : j ∈ idxF js \ proc2 := heq ▸ hj3
    exact (Finset.mem_sdiff.mp this).2 hj2

/-- With enough fuel the merge loop reaches a fixed point: one more
pass over its result changes nothing. -/
theorem mergeLoop_fix (i : ℕ) (js : List (ℕ × Seg)) :
    ∀ fuel m proc, (idxF js \ proc).card < fuel →
      passAux i js (mergeLoop i js fuel m proc).1 (mergeLoop i js fuel m proc).2 false
        = ((mergeLoop i js fuel m proc).1, (mergeLoop i js fuel m proc).2, false) := by
  intro fuel
  induction fuel with
  | zero => intro m proc h; cases h
  | succ k ih =>
    intro m proc h
    rcases hp : passAux i js m proc false with ⟨mp, procp, chp⟩
    cases chp with
    | true =>
      have hstep : mergeLoop i js (k + 1) m proc = mergeLoop i js k mp procp := by
        simp only [mergeLoop]
        rw [hp]
      rw [hstep]
      refine ih mp procp ?_
      have := pass_card_decrease i js m mp proc procp hp
      omega
    | false =>
      have hfix := passAux_false_fix i js m proc (by rw [hp])
      rw [hp] at hfix
      simp only [Prod.mk.injEq] at hfix
      obtain ⟨hm, hpr, -⟩ := hfix
      subst hm
      subst hpr
      have hstep : mergeLoop i js (k + 1) mp procp = (mp, procp) := by
        simp only [mergeLoop]
        rw [hp]
      rw [hstep]
      exact hp

/-- The merge loop only ever adds processed indices. -/
theorem mergeLoop_proc_mono (i : ℕ) (js : List (ℕ × Seg)) :
    ∀ fuel m proc, proc ⊆ (mergeLoop i js fuel m proc).2 := by
  intro fuel
  induction fuel with
  | zero => intro m proc; exact Finset.Subset.refl _
  | succ k ih =>
    intro m proc
    simp only [mergeLoop]
    rcases hp : passAux i js m proc false with ⟨mp, procp, chp⟩
    have hmono := passAux_proc_mono i js m proc false
    rw [hp] at hmono
    cases chp with
    | true => exact Finset.Subset.trans hmono (ih mp procp)
    | false => exact hmono

/-- Unprocessed endpoints only shrink as the list shrinks and the
processed set grows. -/
theorem endSet_anti (js1 js2 : List (ℕ × Seg)) (proc1 proc2 : Finset ℕ)
    (hjs : ∀ jo ∈ js1, jo ∈ js2) (hproc : proc1 ⊆ proc2) :
    endSet js1 proc2 ⊆ endSet js2 proc1 := by
  rintro e ⟨jo, hjo, hnot, he⟩
  exact ⟨jo, hjs jo hjo, fun hc => hnot (hproc hc), he⟩

/-- Endpoints of the running merged segment after a pass come from the
seed or from segments that were unprocessed at the start of the pass. -/
theorem passAux_ends (i : ℕ) (js : List (ℕ × Seg)) :
    ∀ m proc ch e, e ∈ segEnds (passAux i js m proc ch).1 →
      e ∈ segEnds m ∨ e ∈ endSet js proc := by
  induction js with
  | nil => intro m proc ch e he; exact Or.inl he
  | cons jo rest ih =>
    intro m proc ch e he
    obtain ⟨j, o⟩ := jo
    simp only [passAux] at he
    split_ifs at he with hskip
    · rcases ih m proc ch e he with h | h
      · exact Or.inl h
      · exact Or.inr (endSet_anti rest ((j, o) :: rest) proc proc
          (fun z hz => List.mem_cons_of_mem _ hz) (Finset.Subset.refl _) h)
    · revert he
      cases htf : tryFuse m o with
      | some mf =>
        intro he
        replace he : e ∈ segEnds (passAux i rest mf (insert j proc) true).1 := he
        rcases ih mf (insert j proc) true e he with h | h
        · rcases tryFuse_ends m o mf htf e h with h2 | h2
          · exact Or.inl h2
          · exact Or.inr ⟨(j, o), List.mem_cons_self _ _,
              fun hc => hskip (Or.inr hc), h2⟩
        · exact Or.inr (endSet_anti rest ((j, o) :: rest) proc (insert j proc)
            (fun z hz => List.mem_cons_of_mem _ hz) (Finset.subset_insert _ _) h)
      | none =>
        intro he
        replace he : e ∈ segEnds (passAux i rest m proc ch).1 := he
        rcases ih m proc ch e he with h | h
        · exact Or.inl h
        · exact Or.inr (endSet_anti rest ((j, o) :: rest) proc proc
            (fun z hz => List.mem_cons_of_mem _ hz) (Finset.Subset.refl _) h)

/-- Endpoints of a finished chain come from its seed or from segments
unprocessed when the chain started. -/
theorem mergeLoop_ends (i : ℕ) (js : List (ℕ × Seg)) :
    ∀ fuel m proc e, e ∈ segEnds (mergeLoop i js fuel m proc).1 →
      e ∈ segEnds m ∨ e ∈ endSet js proc := by
  intro fuel
  induction fuel with
  | zero => intro m proc e he; exact Or.inl he
  | succ k ih =>
    intro m proc e he
    simp only [mergeLoop] at he
    revert he
    rcases hp : passAux i js m proc false with ⟨mp, procp, chp⟩
    have hmono := passAux_proc_mono i js m proc false
    rw [hp] at hmono
    have hpe := passAux_ends i js m proc false
    rw [hp] at hpe
    cases chp with
    | true =>
      intro he
      rcases ih mp procp e he with h | h
      · exact hpe e h
      · exact Or.inr (endSet_anti js js proc procp (fun z hz => hz) hmono h)
    | false =>
      intro he
      exact hpe e he

/-- At a fixed point of the pass, no unprocessed segment other than the
seed fuses with the merged segment. -/
theorem passAux_fix_none (i : ℕ) (js : List (ℕ × Seg)) :
    ∀ m proc, passAux i js m proc false = (m, proc, false) →
      ∀ j o, (j, o) ∈ js → j ≠ i → j ∉ proc → tryFuse m o = none := by
  induction js with
  | nil => intro m proc _ j o hjo; cases hjo
  | cons jo2 rest ih =>
    intro m proc h j o hjo hji hjp
    obtain ⟨j2, o2⟩ := jo2
    simp only [passAux] at h
    by_cases hskip : j2 = i ∨ j2 ∈ proc
    · rw [if_pos hskip] at h
      rcases List.mem_cons.mp hjo with heq | hmem
      · obtain ⟨e1, e2⟩ := Prod.mk.injEq .. ▸ heq
        subst e1
        subst e2
        rcases hskip with hc | hc
        · exact absurd hc hji
        · exact absurd hc hjp
      · exact ih m proc h j o hmem hji hjp
    · rw [if_neg hskip] at h
      revert h
      cases htf : tryFuse m o2 with
      | some mf =>
        intro h
        replace h : passAux i rest mf (insert j2 proc) true = (m, proc, false) := h
        have := passAux_true i rest mf (insert j2 proc)
        rw [h] at this
        cases this
      | none =>
        intro h
        replace h : passAux i rest m proc false = (m, proc, false) := h
        rcases List.mem_cons.mp hjo with heq | hmem
        · obtain ⟨e1, e2⟩ := Prod.mk.injEq .. ▸ heq
          subst e1
          subst e2
          exact htf
        · exact ih m proc h j o hmem hji hjp

/-- Endpoints of every chain the group loop emits come from segments
unprocessed when the loop reached its current position. -/
theorem mergeGroupGo_ends (allL : List (ℕ × Seg)) :
    ∀ rest proc, (∀ jo ∈ rest, jo ∈ allL) →
      ∀ c ∈ mergeGroupGo allL rest proc, ∀ e ∈ segEnds c, e ∈ endSet allL proc := by
  intro rest
  induction rest with
  | nil => intro proc _ c hc; cases hc
  | cons il rest ih =>
    intro proc hr c hc e he
    obtain ⟨i, l⟩ := il
    simp only [mergeGroupGo] at hc
    split_ifs at hc with hi
    · exact ih proc (fun z hz => hr z (List.mem_cons_of_mem _ hz)) c hc e he
    · rcases List.mem_cons.mp hc with hc | hc
      · subst hc
        rcases mergeLoop_ends i allL (allL.length + 1) l proc e he with h | h
        · exact ⟨(i, l), hr _ (List.mem_cons_self _ _), hi, h⟩
        · exact h
      · have hrec := ih (insert i (mergeLoop i allL (allL.length + 1) l proc).2)
          (fun z hz => hr z (List.mem_cons_of_mem _ hz)) c hc e he
        refine endSet_anti allL allL proc _ (fun z hz => hz) ?_ hrec
        exact Finset.Subset.trans (mergeLoop_proc_mono i allL _ l proc)
          (Finset.subset_insert _ _)

/-- No two chains emitted by the group loop have endpoints within
tolerance of each other in any orientation. -/
theorem mergeGroupGo_pairwise (allL : List (ℕ × Seg)) :
    ∀ rest proc, (∀ jo ∈ rest, jo ∈ allL) →
      (mergeGroupGo allL rest proc).Pairwise fun s t => ¬ touches s t := by
  intro rest
  induction rest with
  | nil => intro proc _; exact List.Pairwise.nil
  | cons il rest ih =>
    intro proc hr
    obtain ⟨i, l⟩ := il
    simp only [mergeGroupGo]
    split_ifs with hi
    · exact ih proc fun z hz => hr z (List.mem_cons_of_mem _ hz)
    · refine List.Pairwise.cons ?_ (ih _ fun z hz => hr z (List.mem_cons_of_mem _ hz))
      intro c hc htouch
      obtain ⟨p, hp, q, hq, hnear⟩ := htouch
      have hq2 := mergeGroupGo_ends allL rest _
        (fun z hz => hr z (List.mem_cons_of_mem _ hz)) c hc q hq
      obtain ⟨⟨j, o⟩, hjo, hjnot, hqo⟩ := hq2
      have hcard : (idxF allL \ proc).card < allL.length + 1 :=
        Nat.lt_succ_of_le (idx_card_le allL proc)
      have hfix := mergeLoop_fix i allL (allL.length + 1) l proc hcard
      have hji : j ≠ i := by
        intro hc2
        apply hjnot
        rw [hc2]
        exact Finset.mem_insert_self i _
      have hjp : j ∉ (mergeLoop i allL (allL.length + 1) l proc).2 :=
        fun hc2 => hjnot (Finset.mem_insert_of_mem hc2)
      have hnone := passAux_fix_none i allL _ _ hfix j o hjo hji hjp
      exact (tryFuse_none_iff _ o).mp hnone ⟨p, hp, q, hqo, hnear⟩

/-- No two segments in a merged group's output touch within
tolerance. -/
theorem mergeSegs_pairwise (gls : List Seg) :
    (mergeSegs gls).Pairwise fun s t => ¬ touches s t :=
  mergeGroupGo_pairwise gls.enum gls.enum ∅ fun _ h => h

/-- Every endpoint of a merged group's output is an endpoint of an
input segment of the group. -/
theorem mergeSegs_ends (gls : List Seg) (c : Seg) (hc : c ∈ mergeSegs gls)
    (e : ℚ × ℚ) (he : e ∈ segEnds c) : ∃ s ∈ gls, e ∈ segEnds s := by
  obtain ⟨⟨j, o⟩, hjo, -, hqo⟩ :=
    mergeGroupGo_ends gls.enum gls.enum ∅ (fun _ h => h) c hc e he
  rw [List.enum_eq_zip_range] at hjo
  exact ⟨o, (List.of_mem_zip hjo).2, hqo⟩

/-- A nonempty group merges to a nonempty output. -/
theorem mergeSegs_ne_nil (gls : List Seg) (h : gls ≠ []) : mergeSegs gls ≠ [] := by
  cases gls with
  | nil => exact absurd rfl h
  | cons s rest =>
    unfold mergeSegs
    rw [List.enum_cons]
    simp [mergeGroupGo]

/-- Reading the segment back off a rebuilt merged line. -/
theorem segOf_segPath (k : MKey) (s : Seg) : segOf (segPath k s) = s := by
  cases s
  simp [segOf, segPath]

/-- Every element of a merged group is a 4-point line carrying the
group's key. -/
theorem mergeGroup_mem (k : MKey) (gls : List PathObj) (p : PathObj)
    (hp : p ∈ mergeGroup k gls) : isMergeLine p = true ∧ keyOf p = k := by
  obtain ⟨s, hs, rfl⟩ := List.mem_map.mp hp
  obtain ⟨k1, k2, k3⟩ := k
  constructor
  · simp [isMergeLine, segPath]
  · simp [keyOf, segPath]

/-- Merged outputs of one group pairwise avoid each other's endpoint
neighborhoods. -/
theorem mergeGroup_pairwise (k : MKey) (gls : List PathObj) :
    (mergeGroup k gls).Pairwise fun p q => ¬ touches (segOf p) (segOf q) := by
  unfold mergeGroup
  rw [List.pairwise_map]
  refine (mergeSegs_pairwise (gls.map segOf)).imp ?_
  intro a b h
  rw [segOf_segPath, segOf_segPath]
  exact h

/-- Keys accumulated by `keyStep` stay in the accumulator. -/
theorem keyStep_mono (ls : List PathObj) :
    ∀ acc k, k ∈ acc → k ∈ ls.foldl keyStep acc := by
  induction ls with
  | nil => intro acc k hk; exact hk
  | cons l rest ih =>
    intro acc k hk
    refine ih (keyStep acc l) k ?_
    unfold keyStep
    split_ifs <;> simp [hk]

/-- The accumulated key list stays duplicate-free. -/
theorem keyStep_nodup (ls : List PathObj) :
    ∀ acc : List MKey, acc.Nodup → (ls.foldl keyStep acc).Nodup := by
  induction ls with
  | nil => intro acc h; exact h
  | cons l rest ih =>
    intro acc h
    refine ih (keyStep acc l) ?_
    unfold keyStep
    split_ifs with hmem
    · exact h
    · simp [List.nodup_append, h, hmem]

/-- Group keys are duplicate-free. -/
theorem groupKeys_nodup (ls : List PathObj) : (groupKeys ls).Nodup :=
  keyStep_nodup ls [] List.nodup_nil

/-- A member's key lands in the key fold from any accumulator. -/
theorem groupKeys_mem_aux (ls : List PathObj) (p : PathObj) (hp : p ∈ ls) :
    ∀ acc, keyOf p ∈ ls.foldl keyStep acc := by
  induction ls generalizing p with
  | nil => cases hp
  | cons l rest ih =>
    intro acc
    rcases List.mem_cons.mp hp with h | h
    · subst h
      simp only [List.foldl_cons]
      apply keyStep_mono
      unfold keyStep
      split_ifs with hmem
      · exact hmem
      · simp
    · simp only [List.foldl_cons]
      exact ih p h (keyStep acc l)

/-- Every line's key occurs among the group keys. -/
theorem groupKeys_mem (ls : List PathObj) (p : PathObj) (hp : p ∈ ls) :
    keyOf p ∈ groupKeys ls := groupKeys_mem_aux ls p hp []

/-- A relation that holds between all members holds pairwise. -/
theorem pairwiseOfMem {α : Type} {R : α → α → Prop} :
    ∀ l : List α, (∀ a ∈ l, ∀ b ∈ l, R a b) → l.Pairwise R := by
  intro l
  induction l with
  | nil => intro _; exact List.Pairwise.nil
  | cons a rest ih =>
    intro h
    refine List.Pairwise.cons ?_ (ih fun x hx y hy =>
      h x (List.mem_cons_of_mem _ hx) y (List.mem_cons_of_mem _ hy))
    intro b hb
    exact h a (List.mem_cons_self _ _) b (List.mem_cons_of_mem _ hb)

/-- The key of a rebuilt merged line is its group key. -/
theorem keyOf_segPath (k : MKey) (s : Seg) : keyOf (segPath k s) = k := by
  obtain ⟨k1, k2, k3⟩ := k
  simp [keyOf, segPath]

/-- C8: the merger iterates fusion to a fixed point — no two line
segments of its output that share a `(stroke, width, layer)` group have
endpoints coinciding within the 0.5 coordinate tolerance under any of
the four endpoint-pairing orientations. -/
theorem C8_merge_fixed_point (paths : List PathObj) (hwf : MergeWF paths) :
    (merge_collinear_lines paths).Pairwise fun p q =>
      isMergeLine p = true → isMergeLine q = true → keyOf p = keyOf q →
        ¬ touches (segOf p) (segOf q) := by
  unfold merge_collinear_lines
  split_ifs with hlen hemp
  · cases paths with
    | nil => exact List.Pairwise.nil
    | cons a t =>
      cases t with
      | nil => exact List.pairwise_singleton _ _
      | cons b t2 =>
        exfalso
        rw [List.length_cons, List.length_cons] at hlen
        omega
  · have hall : ∀ p ∈ paths, isMergeLine p = false := by
      intro p hp
      cases hb : isMergeLine p with
      | false => rfl
      | true =>
        exfalso
        have hmem : p ∈ paths.filter isMergeLine := List.mem_filter.mpr ⟨hp, hb⟩
        rw [List.isEmpty_iff] at hemp
        rw [hemp] at hmem
        cases hmem
    refine pairwiseOfMem paths ?_
    intro a ha b hb h1
    rw [hall a ha] at h1
    cases h1
  · rw [List.pairwise_append]
    refine ⟨?_, ?_, ?_⟩
    · rw [List.pairwise_flatten]
      constructor
      · intro gl hgl
        unfold mergedGroups at hgl
        obtain ⟨k, hk, rfl⟩ := List.mem_map.mp hgl
        refine (mergeGroup_pairwise k _).imp ?_
        intro a b h _ _ _
        exact h
      · have hnd := groupKeys_nodup (paths.filter isMergeLine)
        unfold mergedGroups
        rw [List.pairwise_map]
        refine List.Pairwise.imp ?_ hnd
        intro k1 k2 hne x hx y hy h1 h2 hkey
        have hx2 := mergeGroup_mem k1 _ x hx
        have hy2 := mergeGroup_mem k2 _ y hy
        exfalso
        apply hne
        rw [← hx2.2, ← hy2.2]
        exact hkey
    · refine pairwiseOfMem _ ?_
      intro a ha b hb h1
      have hfa := (List.mem_filter.mp ha).2
      simp [h1] at hfa
    · intro a ha b hb h1 h2 hkey
      have hfb := (List.mem_filter.mp hb).2
      simp [h2] at hfb

/-- Witness for C8 at a concrete mixed-group input. -/
theorem C8_merge_fixed_point_witness :
    (merge_collinear_lines ex8).Pairwise fun p q =>
      isMergeLine p = true → isMergeLine q = true → keyOf p = keyOf q →
        ¬ touches (segOf p) (segOf q) :=
  C8_merge_fixed_point ex8 (by with_unfolding_all decide)

/-- C6 counterexample: two same-style overlapping segments, one doubling
back inside the other.  The merger absorbs both into one output line
whose far endpoint is `(3, 0)`, although the union extent of the two
absorbed segments reaches `(10, 0)` — so the merged endpoints are not
the extreme points of the union extent. -/
theorem C6_union_extent_counterexample :
    merge_collinear_lines [c6a, c6b] = [c6m]
    ∧ c6m.points = [0, 0, 3, 0]
    ∧ ((10 : ℚ), (0 : ℚ)) ∈ segEnds (segOf c6a)
    ∧ (∀ e ∈ segEnds (segOf c6a), e.1 ≤ 10)
    ∧ (∀ e ∈ segEnds (segOf c6b), e.1 ≤ 10)
    ∧ ((10 : ℚ), (0 : ℚ)) ∉ segEnds (segOf c6m) := by
  with_unfolding_all decide

/-- C6 amended: every endpoint of every line the merger emits is an
endpoint of some input line of the same group (each fusion keeps the two
unmatched endpoints of the fused pair); the endpoints need not equal the
union-extent extremes when an absorbed segment folds back inside the
chain. -/
theorem C6_merged_endpoints_from_inputs (paths : List PathObj) (p : PathObj)
    (e : ℚ × ℚ) (hwf : MergeWF paths) (hp : p ∈ merge_collinear_lines paths)
    (hline : isMergeLine p = true) (he : e ∈ segEnds (segOf p)) :
    ∃ q ∈ paths, isMergeLine q = true ∧ keyOf q = keyOf p ∧ e ∈ segEnds (segOf q) := by
  unfold merge_collinear_lines at hp
  split_ifs at hp with h1 h2
  · exact ⟨p, hp, hline, rfl, he⟩
  · exact ⟨p, hp, hline, rfl, he⟩
  · rcases List.mem_append.mp hp with hp | hp
    · obtain ⟨gl, hgl, hpgl⟩ := List.mem_flatten.mp hp
      unfold mergedGroups at hgl
      obtain ⟨k, hk, rfl⟩ := List.mem_map.mp hgl
      unfold mergeGroup at hpgl
      obtain ⟨s, hs, rfl⟩ := List.mem_map.mp hpgl
      rw [segOf_segPath] at he
      obtain ⟨s0, hs0, he0⟩ := mergeSegs_ends _ s hs e he
      obtain ⟨q, hq, rfl⟩ := List.mem_map.mp hs0
      have hq1 := List.mem_filter.mp hq
      have hq2 := List.mem_filter.mp hq1.1
      refine ⟨q, hq2.1, hq2.2, ?_, he0⟩
      have hkq : keyOf q = k := by simpa using hq1.2
      rw [hkq, keyOf_segPath]
    · have hother := (List.mem_filter.mp hp).2
      simp [hline] at hother

/-- Witness for the amended C6 at the counterexample input. -/
theorem C6_merged_endpoints_from_inputs_witness :
    ∃ q ∈ [c6a, c6b], isMergeLine q = true ∧ keyOf q = keyOf c6m
      ∧ ((0 : ℚ), (0 : ℚ)) ∈ segEnds (segOf q) :=
  C6_merged_endpoints_from_inputs [c6a, c6b] c6m (0, 0)
    (by with_unfolding_all decide) (by with_unfolding_all decide)
    (by with_unfolding_all decide) (by with_unfolding_all decide)

/-- Any member line's group has a representative in the merger output
with the same key. -/
theorem merge_group_representative (paths : List PathObj) (p : PathObj)
    (hlen : ¬ paths.length < 2) (hemp : ¬ (paths.filter isMergeLine).isEmpty = true)
    (hp : p ∈ paths) (hpl : isMergeLine p = true) :
    ∃ a ∈ merge_collinear_lines paths, isMergeLine a = true ∧ keyOf a = keyOf p := by
  have hpf : p ∈ paths.filter isMergeLine := List.mem_filter.mpr ⟨hp, hpl⟩
  have hkmem := groupKeys_mem _ p hpf
  have hgne : (paths.filter isMergeLine).filter
      (fun l => decide (keyOf l = keyOf p)) ≠ [] := by
    intro hc
    have hmem : p ∈ (paths.filter isMergeLine).filter
        (fun l => decide (keyOf l = keyOf p)) :=
      List.mem_filter.mpr ⟨hpf, by simp⟩
    rw [hc] at hmem
    cases hmem
  have hsegne : (((paths.filter isMergeLine).filter
      (fun l => decide (keyOf l = keyOf p))).map segOf) ≠ [] := by
    simpa using hgne
  obtain ⟨s, hs⟩ := List.exists_mem_of_ne_nil _ (mergeSegs_ne_nil _ hsegne)
  refine ⟨segPath (keyOf p) s, ?_, ?_, keyOf_segPath _ _⟩
  · unfold merge_collinear_lines
    rw [if_neg hlen, if_neg hemp]
    apply List.mem_append_left
    rw [List.mem_flatten]
    refine ⟨mergeGroup (keyOf p) ((paths.filter isMergeLine).filter
      (fun l => decide (keyOf l = keyOf p))), ?_, ?_⟩
    · unfold mergedGroups
      exact List.mem_map.mpr ⟨keyOf p, hkmem, rfl⟩
    · unfold mergeGroup
      exact List.mem_map.mpr ⟨s, hs, rfl⟩
  · simp [isMergeLine, segPath]

/-- C7: the merger never fuses lines of different
`(stroke, width, layer)` groups — two input lines with different keys
are represented by two distinct output segments, one per key. -/
theorem C7_no_cross_group_merge (paths : List PathObj) (p q : PathObj)
    (hwf : MergeWF paths) (hp : p ∈ paths) (hq : q ∈ paths)
    (hpl : isMergeLine p = true) (hql : isMergeLine q = true)
    (hk : keyOf p ≠ keyOf q) :
    ∃ a ∈ merge_collinear_lines paths, ∃ b ∈ merge_collinear_lines paths,
      isMergeLine a = true ∧ isMergeLine b = true
      ∧ keyOf a = keyOf p ∧ keyOf b = keyOf q ∧ a ≠ b := by
  have hne : p ≠ q := fun h => hk (by rw [h])
  have hlen : ¬ paths.length < 2 := by
    intro hc
    cases paths with
    | nil => cases hp
    | cons a t =>
      cases t with
      | nil =>
        have h1 := List.mem_singleton.mp hp
        have h2 := List.mem_singleton.mp hq
        exact hne (h1.trans h2.symm)
      | cons b t2 =>
        rw [List.length_cons, List.length_cons] at hc
        omega
  have hemp : ¬ (paths.filter isMergeLine).isEmpty = true := by
    intro hc
    rw [List.isEmpty_iff] at hc
    have hpf : p ∈ paths.filter isMergeLine := List.mem_filter.mpr ⟨hp, hpl⟩
    rw [hc] at hpf
    cases hpf
  obtain ⟨a, ha, hal, hak⟩ := merge_group_representative paths p hlen hemp hp hpl
  obtain ⟨b, hb, hbl, hbk⟩ := merge_group_representative paths q hlen hemp hq hql
  refine ⟨a, ha, b, hb, hal, hbl, hak, hbk, ?_⟩
  intro hab
  apply hk
  rw [← hak, ← hbk, hab]

/-- Witness for C7: a black and a grey line of equal width at the same
position stay two distinct output segments. -/
theorem C7_no_cross_group_merge_witness :
    merge_collinear_lines [bgBlack, bgGrey] = [bgBlack, bgGrey]
    ∧ ∃ a ∈ merge_collinear_lines [bgBlack, bgGrey],
        ∃ b ∈ merge_collinear_lines [bgBlack, bgGrey],
          isMergeLine a = true ∧ isMergeLine b = true
          ∧ keyOf a = keyOf bgBlack ∧ keyOf b = keyOf bgGrey ∧ a ≠ b :=
  ⟨by with_unfolding_all decide,
   C7_no_cross_group_merge [bgBlack, bgGrey] bgBlack bgGrey
     (by with_unfolding_all decide) (by with_unfolding_all decide)
     (by with_unfolding_all decide) (by with_unfolding_all decide)
     (by with_unfolding_all decide) (by with_unfolding_all decide)⟩

end PdfExtract
